import Mathlib

/-!
Verification of the disco record-stream codec (`lib/disco/func.py`).

The Python source is shallowly embedded: byte strings are `List Nat`
(one `Nat` per byte), a file descriptor (`fd`) is the list of bytes not
yet read, and `fd.read(n)` is `(src.take n, src.drop n)` — a regular
file returns as many bytes as are available, short only at end of file.
Generators are materialised: a reader returns the list of items it
yielded, the error (if any) that terminated it, and the bytes left
unread in the source.  Loops whose termination depends on data are run
on an explicit fuel chosen large enough (and proved large enough where
a theorem needs it); `Err.outOfFuel` marks the artificial exhaustion
case, which no supplied fuel ever reaches.

External libraries used by the source (`zlib.crc32`, `zlib.decompress`,
`cPickle.load`) are not code of this repository; they enter as function
parameters (`crc`, `dcmp`, `load`) exactly at the call sites the source
uses them, matching the pluggable ObjectCodec / DEFLATE interfaces the
spec assigns them.
-/

namespace Disco

/-- A Python byte string: one natural number (0–255 in real streams) per byte. -/
abbrev Bytes := List Nat

/-- Errors terminating a decode.  The source raises
`DataError("Corrupted ...")`, `DataError("Truncated ...")`, or — for
`old_netstr_reader` with `size=None` — calls the unbound name `err`,
which in Python is a `NameError` raised before anything is read; that
case is `sizeMissing` here.  Offsets and messages carried by the Python
exceptions are not modelled.  `outOfFuel` is an artifact of running
loops on fuel and is unreachable with the fuel the entry points pass. -/
inductive Err where
  | corrupted
  | truncated
  | sizeMissing
  | outOfFuel
  deriving DecidableEq, Repr

/-- An item yielded by `disco_input_stream`: a `(key, value)` pair from the
legacy netstr branch, or a deserialised object from a chunk payload. -/
inductive Item (α : Type) where
  | pair (key val : Bytes)
  | obj (a : α)
  deriving DecidableEq, Repr

/-- Python slice `l[a:b]` for `0 ≤ a ≤ b` (both clamped to the length). -/
def pySlice (l : Bytes) (a b : Nat) : Bytes := (l.take b).drop a

/-- Scan of `data` for byte `c` at positions `p, p+1, ...` (`n` positions
in all); positions past the end of `data` never match. -/
def pyFindAux (data : Bytes) (c : Nat) : Nat → Nat → Option Nat
  | _, 0 => none
  | p, n + 1 => if data[p]? = some c then some p else pyFindAux data c (p + 1) n

/-- Python `data.find(ch, start, stop)` for a one-byte needle: the least
position `p` with `start ≤ p < min(stop, len(data))` holding `ch`, or
`none` (Python's `-1`). -/
def pyFind (data : Bytes) (c : Nat) (start stop : Nat) : Option Nat :=
  pyFindAux data c start (stop - start)

/-- Python whitespace bytes, as stripped by `int()`. -/
def isWs (b : Nat) : Bool := b = 32 || b = 9 || b = 10 || b = 13 || b = 11 || b = 12

/-- ASCII decimal digit byte. -/
def isDigit (b : Nat) : Bool := 48 ≤ b && b ≤ 57

/-- Strip leading and trailing whitespace, as Python `int()` does. -/
def pyStrip (s : Bytes) : Bytes :=
  ((s.dropWhile isWs).reverse.dropWhile isWs).reverse

/-- Python `int(s)` restricted to unsigned numerals: strip whitespace,
then require a nonempty all-digit body.  (`int()` also accepts a sign;
the writer only ever emits unsigned lengths and no stream analysed here
puts a sign where the reader parses a length, so signed parses — whose
downstream negative-length arithmetic Python then mangles — are left out
of the model.)  `none` is Python's `ValueError`. -/
def pyInt (s : Bytes) : Option Nat :=
  let t := pyStrip s
  if t = [] then none
  else if t.all isDigit then
    some (t.foldl (fun a b => 10 * a + (b - 48)) 0)
  else none

/-- Little-endian decimal digits of `n` (empty for 0), run on fuel so that
it stays kernel-computable; `decDigits_eq_digits` ties it to `Nat.digits`. -/
def decDigits : Nat → Nat → List Nat
  | 0, _ => []
  | f + 1, n => if n = 0 then [] else n % 10 :: decDigits f (n / 10)

/-- ASCII decimal numeral of `n`, as Python `"%d" % n` produces. -/
def numeral (n : Nat) : Bytes :=
  if n = 0 then [48] else ((decDigits n n).map (· + 48)).reverse

/-! ## `old_netstr_reader` (func.py lines 244–308) -/

/-- The refill idiom of `read_netstr`:
`if len(data) - idx < need: data = data[idx:] + fd.read(amt); idx = 0`,
used twice, with `(need, amt)` equal to `(11, 8192)` before the length
field and `(llen + 1, llen + 8193)` before the value.  Returns the new
`(src, idx, data)` triple. -/
def refill (need amt : Nat) (src : Bytes) (idx : Nat) (data : Bytes) :
    Bytes × Nat × Bytes :=
  if data.length - idx < need then (src.drop amt, 0, data.drop idx ++ src.take amt)
  else (src, idx, data)

/-- The inner `read_netstr(idx, data, tot)` of `old_netstr_reader`,
with the captured `fd` made explicit (`src` = unread source bytes).
Returns `.ok (src', idx', data', tot', msg)` or the raised error.
The steps mirror the Python line by line: refill when fewer than 11
bytes are buffered; find the space terminating the length within the
next 11 bytes (`Corrupted` if absent); slice `lenstr` through the
space; the (dead) short-buffer `Truncated` check; parse the length
(`Corrupted` on failure); count `lenstr`; refill when fewer than
`llen + 1` bytes remain buffered; slice the value; `Truncated` when the
value and its trailing delimiter byte overrun the buffer; advance. -/
def readNetstr (src : Bytes) (idx : Nat) (data : Bytes) (tot : Nat) :
    Except Err (Bytes × Nat × Bytes × Nat × Bytes) :=
  let t1 := refill 11 8192 src idx data
  let src1 := t1.1
  let idx1 := t1.2.1
  let data1 := t1.2.2
  match pyFind data1 32 idx1 (idx1 + 11) with
  | none => .error .corrupted
  | some i =>
    let lenstr := pySlice data1 idx1 (i + 1)
    let idx2 := i + 1
    if data1.length < i + 1 then .error .truncated
    else
      match pyInt lenstr with
      | none => .error .corrupted
      | some llen =>
        let tot1 := tot + lenstr.length
        let t2 := refill (llen + 1) (llen + 8193) src1 idx2 data1
        let src2 := t2.1
        let idx3 := t2.2.1
        let data2 := t2.2.2
        let msg := pySlice data2 idx3 (idx3 + llen)
        if idx3 + llen + 1 > data2.length then .error .truncated
        else .ok (src2, idx3 + llen + 1, data2, tot1 + llen + 1, msg)

/-- The `while tot < size` loop of `old_netstr_reader`: two `read_netstr`
calls then `yield key, val`.  On an error the source bytes reported are
those unread when the failing record began (the value is not inspected
by any theorem below).  Each successful record strictly increases `tot`,
so fuel `size + 1` (what `oldNetstrReader` passes) can never run out. -/
def netstrLoop (size : Nat) : Nat → Bytes → Nat → Bytes → Nat →
    List (Bytes × Bytes) × Option Err × Bytes
  | 0, src, _, _, _ => ([], some .outOfFuel, src)
  | fuel + 1, src, idx, data, tot =>
    if size ≤ tot then ([], none, src)
    else
      match readNetstr src idx data tot with
      | .error e => ([], some e, src)
      | .ok (src1, idx1, data1, tot1, key) =>
        match readNetstr src1 idx1 data1 tot1 with
        | .error e => ([], some e, src1)
        | .ok (src2, idx2, data2, tot2, val) =>
          let r := netstrLoop size fuel src2 idx2 data2 tot2
          ((key, val) :: r.1, r.2.1, r.2.2)

/-- `old_netstr_reader(fd, size, fname, head='')`.  With `size=None` the
unbound `err(...)` raises before any byte is read; otherwise the initial
buffer is `head + fd.read(8192)` and the record loop runs. -/
def oldNetstrReader (src : Bytes) (size : Option Nat) (head : Bytes) :
    List (Bytes × Bytes) × Option Err × Bytes :=
  match size with
  | none => ([], some .sizeMissing, src)
  | some s => netstrLoop s (s + 1) (src.drop 8192) 0 (head ++ src.take 8192) 0

/-- `netstr_writer(fd, key, value, params)`: the bytes
`"%d %s %d %s\n" % (len(key), key, len(value), value)` appended to the
output (`str()` of a byte string is itself). -/
def netstrWriter (k v : Bytes) : Bytes :=
  numeral k.length ++ [32] ++ k ++ [32] ++ numeral v.length ++ [32] ++ v ++ [10]

/-- Concatenation of `netstr_writer` records for a pair sequence. -/
def encodePairs : List (Bytes × Bytes) → Bytes
  | [] => []
  | p :: ps => netstrWriter p.1 p.2 ++ encodePairs ps

/-- Reference classification of a cut position, written from the amended
truncation claim's wording rather than from the source, to be compared
with the reader's behaviour: with `n` bytes of the encoding of `ps`
available, the cut falls inside a length-prefixed field — after its
`"<len> "` prefix but before the end of the field body and its one-byte
delimiter — exactly when the result is `true`; every other cut position
(inside a length prefix, or exactly at a field or record boundary)
leaves no parsable value length and the result is `false`. -/
def cutInsideField : List (Bytes × Bytes) → Nat → Bool
  | [], _ => false
  | (k, v) :: ps, n =>
    if n < (numeral k.length).length + 1 then false
    else if n < (numeral k.length).length + 1 + (k.length + 1) then true
    else if n < (numeral k.length).length + 1 + (k.length + 1)
        + ((numeral v.length).length + 1) then false
    else if n < (numeral k.length).length + 1 + (k.length + 1)
        + ((numeral v.length).length + 1) + (v.length + 1) then true
    else cutInsideField ps
      (n - ((numeral k.length).length + 1 + (k.length + 1)
        + ((numeral v.length).length + 1) + (v.length + 1)))

/-! ## `re_reader` (func.py lines 310–376) -/

/-- A compiled anchored pattern, abstracting `item_re.match(buf)`: `none`
when no match starts at position 0, otherwise the capture groups and the
match end `m.end()`.  The regex engine itself is external; claims
instantiate this with the concrete pattern they name. -/
abbrev Matcher := Bytes → Option (List Bytes × Nat)

/-- The pattern `"(.*?)\n"` anchored at the buffer head: with lazy
repetition it matches up to the first newline, capturing the bytes
before it; `m.end()` is one past the newline.  No newline, no match. -/
def lineMatch : Matcher := fun buf =>
  match pyFindAux buf 10 0 buf.length with
  | none => none
  | some k => some ([buf.take k], k + 1)

/-- The inner `while m:` loop of `re_reader`: repeatedly match at the
buffer head, yielding groups and dropping the matched bytes.  Run on
fuel (the callers pass `buf.length + 1`); a matcher returning `m.end() = 0`
forever would loop in Python and exhausts the fuel here instead —
`lineMatch` always consumes at least one byte, so for it the fuel is
never reached. -/
def reMatchLoop (m : Matcher) : Nat → Bytes → List (List Bytes) × Bytes
  | 0, buf => ([], buf)
  | fuel + 1, buf =>
    match m buf with
    | none => ([], buf)
    | some (gs, e) =>
      let r := reMatchLoop m fuel (buf.drop e)
      (gs :: r.1, r.2)

/-- The outer `while True:` loop of `re_reader`: read
`min(read_buffer_size, size - tot)` bytes (the full buffer size when
`size` is `None` or `0` — Python truthiness), append to `buf`, drain
matches, and on end of input or `tot >= size` apply the truncation check
and the tail policy (`output_tail` yields the leftover buffer as a
one-element item; otherwise a diagnostic is printed and it is dropped). -/
def reReaderLoop (m : Matcher) (size : Option Nat) (outputTail : Bool) (rbs : Nat) :
    Nat → Bytes → Bytes → Nat → List (List Bytes) × Option Err × Bytes
  | 0, src, _, _ => ([], some .outOfFuel, src)
  | fuel + 1, src, buf, tot =>
    let n := match size with
      | none => rbs
      | some s => if s = 0 then rbs else min rbs (s - tot)
    let r := src.take n
    let src1 := src.drop n
    let tot1 := tot + r.length
    let mres := reMatchLoop m ((buf ++ r).length + 1) (buf ++ r)
    let ms := mres.1
    let buf1 := mres.2
    if r.length = 0 ∨ (size.isSome ∧ size.getD 0 ≤ tot1) then
      if size.isSome ∧ tot1 < size.getD 0 then (ms, some .truncated, src1)
      else if buf1.length ≠ 0 then
        if outputTail then (ms ++ [[buf1]], none, src1) else (ms, none, src1)
      else (ms, none, src1)
    else
      let rest := reReaderLoop m size outputTail rbs fuel src1 buf1 tot1
      (ms ++ rest.1, rest.2.1, rest.2.2)

/-- `re_reader(item_re_str, fd, size, fname, output_tail, read_buffer_size)`.
Every iteration that does not terminate the loop reads at least one
byte, so fuel `src.length + 2` is never exhausted. -/
def reReader (m : Matcher) (src : Bytes) (size : Option Nat)
    (outputTail : Bool) (rbs : Nat) : List (List Bytes) × Option Err × Bytes :=
  reReaderLoop m size outputTail rbs (src.length + 2) src [] 0

/-! ## `disco_input_stream` (func.py lines 517–553) -/

/-- Little-endian byte encoding of `n` on `w` bytes (the instances used
here are `<I`, 4 bytes, and `<Q`, 8 bytes, of `struct.pack`). -/
def leBytes : Nat → Nat → Bytes
  | 0, _ => []
  | w + 1, n => n % 256 :: leBytes w (n / 256)

/-- Little-endian value of a byte list. -/
def leDecode (bs : Bytes) : Nat := bs.foldr (fun b acc => b + 256 * acc) 0

/-- `struct.unpack('<BIQ', hdr)`: exactly 13 bytes decode to the
1-byte compressed flag, 4-byte little-endian checksum and 8-byte
little-endian chunk length; any other length raises (`none`). -/
def parseHeader : Bytes → Option (Nat × Nat × Nat)
  | [f, c0, c1, c2, c3, s0, s1, s2, s3, s4, s5, s7, s8] =>
    some (f, leDecode [c0, c1, c2, c3], leDecode [s0, s1, s2, s3, s4, s5, s7, s8])
  | _ => none

/-- The 13-byte chunk header `struct.pack('<BIQ', flag, checksum, length)`
(the writer side of the wire format, used to build test streams). -/
def mkHeader (flag checksum len : Nat) : Bytes :=
  flag :: (leBytes 4 checksum ++ leBytes 8 len)

/-- The `while True: yield cPickle.load(chunk)` loop over one decoded
payload: `load` consumes one self-delimiting object from the front of
the buffer, `none` being `EOFError` (which breaks the loop).  Run on
fuel; the caller passes `data.length + 1`, enough whenever `load`
consumes at least one byte per object as `cPickle` does. -/
def unpickleAll {α : Type} (load : Bytes → Option (α × Bytes)) :
    Nat → Bytes → List α
  | 0, _ => []
  | fuel + 1, data =>
    match load data with
    | none => []
    | some (a, rest) => a :: unpickleAll load fuel rest

/-- The `while True:` loop of `disco_input_stream`.  Each iteration:
read one byte (`[]` = end of input, return); a byte below 128 hands the
rest of the stream, with that byte as lookahead, to `old_netstr_reader`
and returns; otherwise read and unpack the 13-byte chunk header
(`Truncated` on a short read), stop on a zero length, read the payload,
rebuild `data` (decompressing when the flag is set) and compare the
stored checksum with `crc(data) & 0xFFFFFFFF`.  A decompression failure
leaves `data` at its initialisation `''`; a checksum mismatch raises
after `data` was already assigned — with `ignore_corrupt` false either
raises `Corrupted`, with it true the exception is swallowed and the
loop goes on to unpickle whatever `data` holds.  The running `offset`
feeds only the error message strings and is not modelled. -/
def discoLoop {α : Type} (crc : Bytes → Nat) (dcmp : Bytes → Option Bytes)
    (load : Bytes → Option (α × Bytes)) (size : Option Nat) (ic : Bool) :
    Nat → Bytes → List (Item α) × Option Err × Bytes
  | 0, src => ([], some .outOfFuel, src)
  | fuel + 1, src =>
    match src with
    | [] => ([], none, [])
    | b :: rest =>
      if b < 128 then
        let r := oldNetstrReader rest size [b]
        (r.1.map (fun p => Item.pair p.1 p.2), r.2.1, r.2.2)
      else
        match parseHeader (rest.take 13) with
        | none => ([], some .truncated, rest.drop 13)
        | some (flag, checksum, chunkSize) =>
          let src1 := rest.drop 13
          if chunkSize = 0 then ([], none, src1)
          else
            let chunk := src1.take chunkSize
            let src2 := src1.drop chunkSize
            let att : Bytes × Bool :=
              if flag ≠ 0 then
                match dcmp chunk with
                | none => ([], true)
                | some d =>
                  (d, if checksum = crc d % 4294967296 then false else true)
              else (chunk, if checksum = crc chunk % 4294967296 then false else true)
            if att.2 = true ∧ ic = false then ([], some .corrupted, src2)
            else
              let r := discoLoop crc dcmp load size ic fuel src2
              ((unpickleAll load (att.1.length + 1) att.1).map Item.obj ++ r.1,
               r.2.1, r.2.2)

/-- `disco_input_stream(stream, size, url, ignore_corrupt)`.  Every loop
iteration consumes at least the one sniffed byte, so fuel
`src.length + 1` is never exhausted. -/
def discoInputStream {α : Type} (crc : Bytes → Nat) (dcmp : Bytes → Option Bytes)
    (load : Bytes → Option (α × Bytes)) (src : Bytes) (size : Option Nat)
    (ic : Bool) : List (Item α) × Option Err × Bytes :=
  discoLoop crc dcmp load size ic (src.length + 1) src

/-- A well-formed uncompressed chunk sequence as the paired writer emits
it — for each `(marker, payload)` a marker byte, the header with a
matching checksum, then the payload — with no terminal zero chunk. -/
def encodeChunks (crc : Bytes → Nat) : List (Nat × Bytes) → Bytes
  | [] => []
  | p :: ps =>
    p.1 :: (mkHeader 0 (crc p.2 % 4294967296) p.2.length ++ p.2)
      ++ encodeChunks crc ps

/-- The objects such a chunk sequence deserialises to. -/
def chunkObjs {α : Type} (load : Bytes → Option (α × Bytes)) :
    List (Nat × Bytes) → List (Item α)
  | [] => []
  | p :: ps => (unpickleAll load (p.2.length + 1) p.2).map Item.obj ++ chunkObjs load ps

/-! ## Numeral lemmas -/

theorem decDigits_eq_digits : ∀ fuel n, n ≤ fuel → decDigits fuel n = Nat.digits 10 n := by
  intro fuel
  induction fuel with
  | zero =>
    intro n hn
    have h0 : n = 0 := Nat.le_zero.mp hn
    subst h0
    simp [decDigits]
  | succ f ih =>
    intro n hn
    by_cases h0 : n = 0
    · subst h0; simp [decDigits]
    · have hdiv : n / 10 < n := Nat.div_lt_self (Nat.pos_of_ne_zero h0) (by norm_num)
      have hstep : decDigits (f + 1) n = n % 10 :: decDigits f (n / 10) := by
        simp [decDigits, h0]
      rw [hstep, ih (n / 10) (by omega),
        Nat.digits_def' (b := 10) (by norm_num) (Nat.pos_of_ne_zero h0)]

theorem numeral_eq (n : Nat) :
    numeral n = if n = 0 then [48] else ((Nat.digits 10 n).map (· + 48)).reverse := by
  unfold numeral
  rw [decDigits_eq_digits n n le_rfl]

theorem numeral_ne_nil (n : Nat) : numeral n ≠ [] := by
  rw [numeral_eq]
  by_cases h0 : n = 0
  · simp [h0]
  · simp [h0, Nat.digits_ne_nil_iff_ne_zero.mpr h0]

theorem mem_numeral_digit {n b : Nat} (hb : b ∈ numeral n) : 48 ≤ b ∧ b ≤ 57 := by
  rw [numeral_eq] at hb
  by_cases h0 : n = 0
  · simp [h0] at hb
    omega
  · simp only [h0, if_false, List.mem_reverse, List.mem_map] at hb
    obtain ⟨d, hd, rfl⟩ := hb
    have := Nat.digits_lt_base (by norm_num) hd
    omega

theorem mem_numeral_not_ws {n b : Nat} (hb : b ∈ numeral n) : isWs b = false := by
  have := mem_numeral_digit hb
  simp [isWs]
  omega

theorem mem_numeral_is_digit {n b : Nat} (hb : b ∈ numeral n) : isDigit b = true := by
  have := mem_numeral_digit hb
  simp [isDigit]
  omega

theorem numeral_length_le {n : Nat} (h : n < 10 ^ 10) : (numeral n).length ≤ 10 := by
  rw [numeral_eq]
  by_cases h0 : n = 0
  · simp [h0]
  · simp only [h0, if_false, List.length_reverse, List.length_map]
    rw [Nat.digits_len 10 n (by norm_num) h0]
    have := (Nat.lt_pow_iff_log_lt (b := 10) (by norm_num) h0).mp h
    omega

theorem foldl_dec (l : List Nat) :
    ∀ acc, l.reverse.foldl (fun a d => 10 * a + d) acc
      = acc * 10 ^ l.length + Nat.ofDigits 10 l := by
  induction l with
  | nil => intro acc; simp
  | cons d t ih =>
    intro acc
    simp only [List.reverse_cons, List.foldl_append, List.foldl_cons, List.foldl_nil,
      ih acc, Nat.ofDigits_cons, List.length_cons]
    ring

theorem pyStrip_space {h : Nat} {t : Bytes} (hws : ∀ b ∈ h :: t, isWs b = false) :
    pyStrip ((h :: t) ++ [32]) = h :: t := by
  have hh : ¬ isWs h = true := by rw [hws h (List.mem_cons_self h t)]; simp
  have h32 : isWs 32 = true := by decide
  unfold pyStrip
  rw [List.cons_append, List.dropWhile_cons_of_neg hh, ← List.cons_append,
    List.reverse_append, List.reverse_singleton, List.singleton_append,
    List.dropWhile_cons_of_pos h32]
  cases htr : (h :: t).reverse with
  | nil => simp at htr
  | cons x xs =>
    have hx : x ∈ h :: t := by rw [← List.mem_reverse, htr]; exact List.mem_cons_self x xs
    have hxw : ¬ isWs x = true := by rw [hws x hx]; simp
    rw [List.dropWhile_cons_of_neg hxw, ← htr, List.reverse_reverse]

theorem pyInt_numeral (n : Nat) : pyInt (numeral n ++ [32]) = some n := by
  obtain ⟨h, t, hht⟩ : ∃ h t, numeral n = h :: t := by
    cases hn : numeral n with
    | nil => exact absurd hn (numeral_ne_nil n)
    | cons h t => exact ⟨h, t, rfl⟩
  have hstrip : pyStrip (numeral n ++ [32]) = numeral n := by
    rw [hht]
    exact pyStrip_space (fun b hb => mem_numeral_not_ws (n := n) (hht.symm ▸ hb))
  unfold pyInt
  rw [hstrip]
  rw [if_neg (numeral_ne_nil n), if_pos]
  · congr 1
    rw [numeral_eq]
    by_cases h0 : n = 0
    · simp [h0]
    · simp only [h0, if_false]
      have hmap : ((Nat.digits 10 n).map (· + 48)).reverse
          = ((Nat.digits 10 n).reverse).map (· + 48) := by
        rw [List.map_reverse]
      rw [hmap, List.foldl_map]
      simp only [Nat.add_sub_cancel]
      rw [foldl_dec, Nat.ofDigits_digits]
      omega
  · rw [List.all_eq_true]
    intro b hb
    exact mem_numeral_is_digit hb

/-! ## Buffer, search and slice lemmas -/

theorem pyFindAux_found (data : Bytes) (c : Nat) :
    ∀ (k n p : Nat), k < n → (∀ j, j < k → data[p + j]? ≠ some c) →
      data[p + k]? = some c → pyFindAux data c p n = some (p + k) := by
  intro k
  induction k with
  | zero =>
    intro n p hn _ hk
    obtain ⟨m, rfl⟩ : ∃ m, n = m + 1 := ⟨n - 1, by omega⟩
    have hp : data[p]? = some c := by simpa using hk
    simp only [pyFindAux]
    rw [if_pos hp]
    rfl
  | succ k ih =>
    intro n p hn hlt hk
    obtain ⟨m, rfl⟩ : ∃ m, n = m + 1 := ⟨n - 1, by omega⟩
    have hp : ¬ data[p]? = some c := by simpa using hlt 0 (by omega)
    simp only [pyFindAux]
    rw [if_neg hp]
    have hrec := ih m (p + 1) (by omega)
      (fun j hj => by
        have := hlt (j + 1) (by omega)
        simpa [Nat.add_assoc, Nat.add_comm 1 j] using this)
      (by simpa [Nat.add_assoc, Nat.add_comm 1 k] using hk)
    rw [hrec]
    congr 1
    omega

theorem pyFindAux_none (data : Bytes) (c : Nat) :
    ∀ (n p : Nat), (∀ j, j < n → data[p + j]? ≠ some c) →
      pyFindAux data c p n = none := by
  intro n
  induction n with
  | zero => intro p _; rfl
  | succ m ih =>
    intro p h
    have hp : ¬ data[p]? = some c := by simpa using h 0 (by omega)
    simp only [pyFindAux]
    rw [if_neg hp]
    exact ih (p + 1) (fun j hj => by
      have := h (j + 1) (by omega)
      simpa [Nat.add_assoc, Nat.add_comm 1 j] using this)

theorem pyFindAux_mem {data : Bytes} {c : Nat} :
    ∀ {n p i : Nat}, pyFindAux data c p n = some i → data[i]? = some c := by
  intro n
  induction n with
  | zero => intro p i h; exact absurd h (by simp [pyFindAux])
  | succ m ih =>
    intro p i h
    simp only [pyFindAux] at h
    by_cases hc : data[p]? = some c
    · rw [if_pos hc] at h
      obtain rfl : p = i := by simpa using h
      exact hc
    · rw [if_neg hc] at h
      exact ih h

theorem pySlice_eq {l : Bytes} {a b : Nat} (h : a ≤ b) :
    pySlice l a b = (l.drop a).take (b - a) := by
  unfold pySlice
  rw [List.take_drop]
  have hab : a + (b - a) = b := by omega
  rw [hab]

theorem take_of_append_eq {B s X rest : Bytes} (h : B ++ s = X ++ rest)
    (hlen : X.length ≤ B.length) : B.take X.length = X := by
  have h1 : (B ++ s).take X.length = B.take X.length :=
    List.take_append_of_le_length hlen
  rw [h, List.take_left] at h1
  exact h1.symm

theorem drop_of_append_eq {B s X rest : Bytes} (h : B ++ s = X ++ rest)
    (hlen : X.length ≤ B.length) : B.drop X.length ++ s = rest := by
  have hB : B = X ++ B.drop X.length := by
    conv_lhs => rw [← List.take_append_drop X.length B]
    rw [take_of_append_eq h hlen]
  rw [hB, List.append_assoc] at h
  exact List.append_cancel_left h

theorem getElem?_of_append_eq {B s X rest : Bytes} (h : B ++ s = X ++ rest)
    (hlen : X.length ≤ B.length) {j : Nat} (hj : j < X.length) : B[j]? = X[j]? := by
  have h1 : (B ++ s)[j]? = B[j]? := List.getElem?_append_left (by omega)
  rw [← h1, h, List.getElem?_append_left hj]

theorem refill_spec {src data R src1 data1 : Bytes} {idx idx1 need amt : Nat}
    (h : refill need amt src idx data = (src1, idx1, data1))
    (hInv : data.drop idx ++ src = R) (hna : need ≤ amt) :
    data1.drop idx1 ++ src1 = R ∧ (need ≤ data1.length - idx1 ∨ src1 = []) := by
  unfold refill at h
  by_cases hc : data.length - idx < need
  · rw [if_pos hc] at h
    obtain ⟨rfl, rfl, rfl⟩ : src.drop amt = src1 ∧ 0 = idx1 ∧
        data.drop idx ++ src.take amt = data1 := by
      simpa [Prod.ext_iff] using h
    constructor
    · rw [List.drop_zero, List.append_assoc, List.take_append_drop]
      exact hInv
    · by_cases hs : src.length ≤ amt
      · right
        exact List.drop_of_length_le hs
      · left
        simp only [List.drop_zero, List.length_append, List.length_take,
          List.length_drop]
        omega
  · rw [if_neg hc] at h
    obtain ⟨rfl, rfl, rfl⟩ : src = src1 ∧ idx = idx1 ∧ data = data1 := by
      simpa [Prod.ext_iff] using h
    exact ⟨hInv, Or.inl (by omega)⟩

/-! ## Field-level behaviour of `read_netstr` -/

theorem readNetstr_ok (tot : Nat) {src data body rest : Bytes} {idx L d : Nat}
    (hInv : data.drop idx ++ src = numeral L ++ 32 :: (body ++ d :: rest))
    (hL : L < 10 ^ 10) (hbody : body.length = L) :
    ∃ src2 idx4 data2,
      readNetstr src idx data tot
        = .ok (src2, idx4, data2, tot + ((numeral L).length + 1) + L + 1, body)
      ∧ data2.drop idx4 ++ src2 = rest := by
  obtain ⟨src1, idx1, data1, h1⟩ :
      ∃ a b c, refill 11 8192 src idx data = (a, b, c) := ⟨_, _, _, rfl⟩
  obtain ⟨hI1, hb1⟩ := refill_spec h1 hInv (by norm_num)
  have hnum10 : (numeral L).length ≤ 10 := numeral_length_le hL
  have hnum1 : 0 < (numeral L).length := List.length_pos.mpr (numeral_ne_nil L)
  have hB1 : (data1.drop idx1).length = data1.length - idx1 := List.length_drop idx1 data1
  have hI1' : data1.drop idx1 ++ src1
      = (numeral L ++ [32]) ++ (body ++ d :: rest) := by
    rw [hI1]
    simp
  have hlen1 : (numeral L).length + 1 ≤ (data1.drop idx1).length := by
    rcases hb1 with hb1 | hb1
    · omega
    · rw [hb1, List.append_nil] at hI1'
      rw [hI1']
      simp only [List.length_append, List.length_cons]
      omega
  have hfind : pyFind data1 32 idx1 (idx1 + 11) = some (idx1 + (numeral L).length) := by
    unfold pyFind
    have h11 : idx1 + 11 - idx1 = 11 := by omega
    rw [h11]
    apply pyFindAux_found data1 32 (numeral L).length 11 idx1 (by omega)
    · intro j hj
      have hdj : data1[idx1 + j]? = (numeral L)[j]? := by
        rw [← List.getElem?_drop]
        exact getElem?_of_append_eq hI1
          (le_trans (by omega) hlen1) hj
      rw [hdj, List.getElem?_eq_getElem hj]
      intro hcon
      have h32 : (numeral L)[j] = 32 := by simpa using hcon
      have := mem_numeral_digit (n := L) (h32 ▸ List.getElem_mem hj)
      omega
    · have hdk : data1[idx1 + (numeral L).length]? = (numeral L ++ [32])[(numeral L).length]? := by
        rw [← List.getElem?_drop]
        exact getElem?_of_append_eq hI1'
          (by simpa using hlen1) (by simp)
      rw [hdk, List.getElem?_append_right (le_refl _)]
      simp
  have hlenstr : pySlice data1 idx1 (idx1 + (numeral L).length + 1) = numeral L ++ [32] := by
    rw [pySlice_eq (by omega)]
    have hsub : idx1 + (numeral L).length + 1 - idx1 = (numeral L).length + 1 := by omega
    rw [hsub]
    have := take_of_append_eq hI1' (by simpa using hlen1)
    simpa using this
  have hdead : ¬ data1.length < idx1 + (numeral L).length + 1 := by omega
  obtain ⟨src2, idx3, data2, h2⟩ :
      ∃ a b c, refill (L + 1) (L + 8193) src1 (idx1 + (numeral L).length + 1) data1
        = (a, b, c) := ⟨_, _, _, rfl⟩
  have hI2pre : data1.drop (idx1 + (numeral L).length + 1) ++ src1 = body ++ d :: rest := by
    have hdd : data1.drop (idx1 + ((numeral L).length + 1))
        = (data1.drop idx1).drop ((numeral L).length + 1) := by
      rw [List.drop_drop]
    have := drop_of_append_eq hI1' (by simpa using hlen1)
    rw [← Nat.add_assoc] at hdd
    rw [hdd]
    simpa using this
  obtain ⟨hI2, hb2⟩ := refill_spec h2 hI2pre (by omega)
  have hB3 : (data2.drop idx3).length = data2.length - idx3 := List.length_drop idx3 data2
  have hlen2 : L + 1 ≤ (data2.drop idx3).length := by
    rcases hb2 with hb2 | hb2
    · omega
    · rw [hb2, List.append_nil] at hI2
      rw [hI2]
      simp only [List.length_append, List.length_cons]
      omega
  have hmsg : pySlice data2 idx3 (idx3 + L) = body := by
    rw [pySlice_eq (by omega)]
    have hsub : idx3 + L - idx3 = L := by omega
    rw [hsub, ← hbody]
    exact take_of_append_eq hI2 (by omega)
  have hfin : ¬ idx3 + L + 1 > data2.length := by omega
  refine ⟨src2, idx3 + L + 1, data2, ?_, ?_⟩
  · unfold readNetstr
    simp only [h1, h2, hfind, hlenstr, hmsg, pyInt_numeral]
    rw [if_neg hdead, if_neg hfin]
    simp [List.length_append]
  · have hI2' : data2.drop idx3 ++ src2 = (body ++ [d]) ++ rest := by
      rw [hI2]
      simp
    have hdd : data2.drop (idx3 + (L + 1)) = (data2.drop idx3).drop (L + 1) := by
      rw [List.drop_drop]
    have hdrop := drop_of_append_eq hI2' (by simp [hbody]; omega)
    rw [← Nat.add_assoc] at hdd
    rw [hdd]
    have hlen : (body ++ [d]).length = L + 1 := by simp [hbody]
    rw [← hlen]
    exact hdrop

/-- Shared head analysis: when the remaining logical stream starts with a
full length field `numeral L ++ " "` and at least that much is buffered,
the space search, the `lenstr` slice and the dead short-buffer check
behave canonically. -/
theorem netstr_head_parse {data1 src1 tail2 : Bytes} {idx1 L : Nat}
    (hI1' : data1.drop idx1 ++ src1 = (numeral L ++ [32]) ++ tail2)
    (hL : L < 10 ^ 10)
    (hlen1 : (numeral L).length + 1 ≤ (data1.drop idx1).length) :
    pyFind data1 32 idx1 (idx1 + 11) = some (idx1 + (numeral L).length)
    ∧ pySlice data1 idx1 (idx1 + (numeral L).length + 1) = numeral L ++ [32]
    ∧ ¬ data1.length < idx1 + (numeral L).length + 1 := by
  have hnum10 : (numeral L).length ≤ 10 := numeral_length_le hL
  have hB1 : (data1.drop idx1).length = data1.length - idx1 := List.length_drop idx1 data1
  have hI1 : data1.drop idx1 ++ src1 = numeral L ++ 32 :: tail2 := by
    rw [hI1']
    simp
  refine ⟨?_, ?_, by omega⟩
  · unfold pyFind
    have h11 : idx1 + 11 - idx1 = 11 := by omega
    rw [h11]
    apply pyFindAux_found data1 32 (numeral L).length 11 idx1 (by omega)
    · intro j hj
      have hdj : data1[idx1 + j]? = (numeral L)[j]? := by
        rw [← List.getElem?_drop]
        exact getElem?_of_append_eq hI1 (le_trans (by omega) hlen1) hj
      rw [hdj, List.getElem?_eq_getElem hj]
      intro hcon
      have h32 : (numeral L)[j] = 32 := by simpa using hcon
      have := mem_numeral_digit (n := L) (h32 ▸ List.getElem_mem hj)
      omega
    · have hdk : data1[idx1 + (numeral L).length]?
          = (numeral L ++ [32])[(numeral L).length]? := by
        rw [← List.getElem?_drop]
        exact getElem?_of_append_eq hI1' (by simpa using hlen1) (by simp)
      rw [hdk, List.getElem?_append_right (le_refl _)]
      simp
  · rw [pySlice_eq (by omega)]
    have hsub : idx1 + (numeral L).length + 1 - idx1 = (numeral L).length + 1 := by omega
    rw [hsub]
    have := take_of_append_eq hI1' (by simpa using hlen1)
    simpa using this

/-- When the logical remaining stream is a proper strict front of a single
field (`m` of its `len(numeral L) + 1 + L + 1` bytes), `read_netstr`
raises: Corrupted when the cut leaves no parsable length (at most the
bare digits), Truncated when it falls after the length field but before
the end of the value and its delimiter. -/
theorem readNetstr_err (tot : Nat) {src data body : Bytes} {idx L d m : Nat}
    (hInv : data.drop idx ++ src = (numeral L ++ 32 :: (body ++ [d])).take m)
    (hL : L < 10 ^ 10) (hbody : body.length = L)
    (hm : m < (numeral L).length + 1 + (L + 1)) :
    readNetstr src idx data tot
      = .error (if m < (numeral L).length + 1 then Err.corrupted
          else Err.truncated) := by
  have hnum10 : (numeral L).length ≤ 10 := numeral_length_le hL
  have hnum1 : 0 < (numeral L).length := List.length_pos.mpr (numeral_ne_nil L)
  obtain ⟨src1, idx1, data1, h1⟩ :
      ∃ a b c, refill 11 8192 src idx data = (a, b, c) := ⟨_, _, _, rfl⟩
  obtain ⟨hI1, hb1⟩ := refill_spec h1 hInv (by norm_num)
  have hB1 : (data1.drop idx1).length = data1.length - idx1 := List.length_drop idx1 data1
  have hRlen : ((numeral L ++ 32 :: (body ++ [d])).take m).length = m := by
    simp only [List.length_take, List.length_append, List.length_cons]
    omega
  by_cases hcase : m ≤ (numeral L).length
  · -- the cut leaves only (part of) the digits: no space in the window
    have hR : (numeral L ++ 32 :: (body ++ [d])).take m = (numeral L).take m :=
      List.take_append_of_le_length hcase
    have hsrc1 : src1 = [] := by
      rcases hb1 with hb1 | hb1
      · exfalso
        have : (data1.drop idx1).length ≤ m := by
          have := congrArg List.length hI1
          simp only [List.length_append, hRlen] at this
          omega
        omega
      · exact hb1
    have hdata1 : data1.drop idx1 = (numeral L).take m := by
      rw [hsrc1, List.append_nil] at hI1
      rw [hI1, hR]
    have hfind : pyFind data1 32 idx1 (idx1 + 11) = none := by
      unfold pyFind
      have h11 : idx1 + 11 - idx1 = 11 := by omega
      rw [h11]
      apply pyFindAux_none
      intro j hj
      have hdj : data1[idx1 + j]? = ((numeral L).take m)[j]? := by
        rw [← List.getElem?_drop, hdata1]
      rw [hdj]
      by_cases hjm : j < ((numeral L).take m).length
      · rw [List.getElem?_eq_getElem hjm]
        intro hcon
        have h32 : ((numeral L).take m)[j] = 32 := by simpa using hcon
        have hmem : (32 : Nat) ∈ numeral L :=
          List.take_subset m (numeral L) (h32 ▸ List.getElem_mem hjm)
        have := mem_numeral_digit hmem
        omega
      · rw [List.getElem?_eq_none (by omega)]
        simp
    have hml : m < (numeral L).length + 1 := by omega
    rw [if_pos hml]
    unfold readNetstr
    simp only [h1, hfind]
  · -- the length field parses, then the value overruns the buffer
    have hm1 : (numeral L).length + 1 ≤ m := by omega
    obtain ⟨m2, hm2⟩ : ∃ m2, m = (numeral L).length + 1 + m2 := ⟨m - ((numeral L).length + 1), by omega⟩
    have hm2L : m2 ≤ L := by omega
    have hR : (numeral L ++ 32 :: (body ++ [d])).take m
        = (numeral L ++ [32]) ++ (body ++ [d]).take m2 := by
      rw [List.take_append_eq_append_take,
        List.take_of_length_le (by omega)]
      have hcut : m - (numeral L).length = m2 + 1 := by omega
      rw [hcut, List.take_succ_cons]
      simp
    rw [hR] at hI1
    have hlen1 : (numeral L).length + 1 ≤ (data1.drop idx1).length := by
      rcases hb1 with hb1 | hb1
      · omega
      · rw [hb1, List.append_nil] at hI1
        rw [hI1]
        simp only [List.length_append, List.length_cons]
        omega
    obtain ⟨hfind, hlenstr, hdead⟩ := netstr_head_parse hI1 hL hlen1
    obtain ⟨src2, idx3, data2, h2⟩ :
        ∃ a b c, refill (L + 1) (L + 8193) src1 (idx1 + (numeral L).length + 1) data1
          = (a, b, c) := ⟨_, _, _, rfl⟩
    have hI2pre : data1.drop (idx1 + (numeral L).length + 1) ++ src1
        = (body ++ [d]).take m2 := by
      have hdd : data1.drop (idx1 + ((numeral L).length + 1))
          = (data1.drop idx1).drop ((numeral L).length + 1) := by
        rw [List.drop_drop]
      have := drop_of_append_eq hI1 (by simpa using hlen1)
      rw [← Nat.add_assoc] at hdd
      rw [hdd]
      simpa using this
    obtain ⟨hI2, hb2⟩ := refill_spec h2 hI2pre (by omega)
    have hB3 : (data2.drop idx3).length = data2.length - idx3 := List.length_drop idx3 data2
    have hshort : (data2.drop idx3).length ≤ m2 := by
      have := congrArg List.length hI2
      simp only [List.length_append, List.length_take, List.length_cons, hbody] at this
      omega
    have hfin : idx3 + L + 1 > data2.length := by omega
    have hml : ¬ m < (numeral L).length + 1 := by omega
    rw [if_neg hml]
    unfold readNetstr
    simp only [h1, h2, hfind, hlenstr, pyInt_numeral]
    rw [if_neg hdead, if_pos hfin]

/-! ## Record-level and loop-level lemmas for the netstr reader -/

theorem netstrWriter_decomp (k v rest : Bytes) :
    netstrWriter k v ++ rest
      = numeral k.length
          ++ 32 :: (k ++ 32 :: (numeral v.length ++ 32 :: (v ++ 10 :: rest))) := by
  simp [netstrWriter]

theorem field_flat (body : Bytes) (L d : Nat) (x : Bytes) :
    (numeral L ++ [32] ++ body ++ [d]) ++ x = numeral L ++ 32 :: (body ++ d :: x) := by
  simp

theorem field_flat_nil (body : Bytes) (L d : Nat) :
    numeral L ++ [32] ++ body ++ [d] = numeral L ++ 32 :: (body ++ [d]) := by
  simp

theorem netstrWriter_split (k v : Bytes) :
    netstrWriter k v
      = (numeral k.length ++ [32] ++ k ++ [32])
          ++ (numeral v.length ++ [32] ++ v ++ [10]) := by
  simp [netstrWriter]

theorem netstrWriter_length (k v : Bytes) :
    (netstrWriter k v).length
      = ((numeral k.length).length + 1) + k.length + 1
        + (((numeral v.length).length + 1) + v.length + 1) := by
  simp [netstrWriter]
  omega

theorem netstrWriter_length_pos (k v : Bytes) : 0 < (netstrWriter k v).length := by
  simp [netstrWriter]

theorem encodePairs_len (ps : List (Bytes × Bytes)) :
    ps.length ≤ (encodePairs ps).length := by
  induction ps with
  | nil => simp [encodePairs]
  | cons p ps ih =>
    simp only [encodePairs, List.length_append, List.length_cons]
    have := netstrWriter_length_pos p.1 p.2
    omega

/-- Round-trip at loop level: when the logical remaining stream is the
exact encoding of `ps` and the declared size matches, the loop yields
`ps` and stops cleanly with the source drained. -/
theorem netstrLoop_ok : ∀ (ps : List (Bytes × Bytes)) (fuel : Nat) (src data : Bytes)
    (idx tot size : Nat),
    (∀ p ∈ ps, p.1.length < 10 ^ 10 ∧ p.2.length < 10 ^ 10) →
    data.drop idx ++ src = encodePairs ps →
    size = tot + (encodePairs ps).length →
    ps.length < fuel →
    netstrLoop size fuel src idx data tot = (ps, none, []) := by
  intro ps
  induction ps with
  | nil =>
    intro fuel src data idx tot size _ hI hs hf
    obtain ⟨m, rfl⟩ : ∃ m, fuel = m + 1 := ⟨fuel - 1, by omega⟩
    have hsrc : src = [] := by
      have h := hI
      simp [encodePairs] at h
      exact h.2
    have hsz : size ≤ tot := by
      simp only [encodePairs, List.length_nil] at hs
      omega
    simp only [netstrLoop]
    rw [if_pos hsz, hsrc]
  | cons p ps ih =>
    intro fuel src data idx tot size hb hI hs hf
    obtain ⟨m, rfl⟩ : ∃ m, fuel = m + 1 := ⟨fuel - 1, by omega⟩
    obtain ⟨k, v⟩ := p
    have hk10 : k.length < 10 ^ 10 := (hb (k, v) (List.mem_cons_self _ _)).1
    have hv10 : v.length < 10 ^ 10 := (hb (k, v) (List.mem_cons_self _ _)).2
    have hI1 : data.drop idx ++ src
        = numeral k.length
            ++ 32 :: (k ++ 32 :: (numeral v.length ++ 32 :: (v ++ 10 :: encodePairs ps))) := by
      rw [hI]
      show netstrWriter k v ++ encodePairs ps = _
      exact netstrWriter_decomp k v (encodePairs ps)
    obtain ⟨srcA, idxA, dataA, hstep1, hIA⟩ := readNetstr_ok tot hI1 hk10 rfl
    obtain ⟨srcB, idxB, dataB, hstep2, hIB⟩ :=
      readNetstr_ok (tot + ((numeral k.length).length + 1) + k.length + 1)
        hIA hv10 rfl
    have hlt : ¬ size ≤ tot := by
      have := netstrWriter_length_pos k v
      simp only [encodePairs, List.length_append] at hs
      omega
    have hrec := ih m srcB dataB idxB
      (tot + ((numeral k.length).length + 1) + k.length + 1
        + ((numeral v.length).length + 1) + v.length + 1) size
      (fun q hq => hb q (List.mem_cons_of_mem _ hq)) hIB
      (by
        simp only [encodePairs, List.length_append] at hs
        rw [netstrWriter_length k v] at hs
        omega)
      (by simp at hf; omega)
    simp only [netstrLoop, hstep1, hstep2]
    rw [if_neg hlt]
    simp only [hrec]

/-- Truncation at loop level: when the logical remaining stream is a
strict front (`tot + n < size` with only `n` bytes left) of the
encoding of `ps`, the loop yields a front of `ps` — never a cut record
— and fails with exactly the error the cut position dictates: Truncated
when the cut falls inside a length-prefixed field, Corrupted when it
leaves no parsable value length. -/
theorem netstrLoop_err : ∀ (ps : List (Bytes × Bytes)) (n fuel : Nat) (src data : Bytes)
    (idx tot size : Nat),
    (∀ p ∈ ps, p.1.length < 10 ^ 10 ∧ p.2.length < 10 ^ 10) →
    data.drop idx ++ src = (encodePairs ps).take n →
    n ≤ (encodePairs ps).length →
    tot + n < size →
    n + 2 ≤ fuel →
    ∃ j s2, netstrLoop size fuel src idx data tot
      = (ps.take j,
         some (if cutInsideField ps n then Err.truncated else Err.corrupted),
         s2) := by
  intro ps
  induction ps with
  | nil =>
    intro n fuel src data idx tot size _ hI hn hsz hf
    obtain ⟨m, rfl⟩ : ∃ m, fuel = m + 1 := ⟨fuel - 1, by omega⟩
    have hn0 : n = 0 := by simpa [encodePairs] using hn
    subst hn0
    have hI0 : data.drop idx ++ src
        = (numeral 0 ++ 32 :: (([] : Bytes) ++ [0])).take 0 := by
      simpa [encodePairs] using hI
    have hstep := readNetstr_err tot hI0 (by norm_num) rfl
      (by have := List.length_pos.mpr (numeral_ne_nil 0); omega)
    have he : (if (0 : Nat) < (numeral 0).length + 1 then Err.corrupted
        else Err.truncated) = Err.corrupted := by decide
    rw [he] at hstep
    refine ⟨0, src, ?_⟩
    have hcf : (if cutInsideField [] 0 then Err.truncated else Err.corrupted)
        = Err.corrupted := rfl
    rw [hcf]
    simp only [netstrLoop, hstep]
    rw [if_neg (by omega)]
    rfl
  | cons p ps ih =>
    intro n fuel src data idx tot size hb hI hn hsz hf
    obtain ⟨m, rfl⟩ : ∃ m, fuel = m + 1 := ⟨fuel - 1, by omega⟩
    obtain ⟨k, v⟩ := p
    have hk10 : k.length < 10 ^ 10 := (hb (k, v) (List.mem_cons_self _ _)).1
    have hv10 : v.length < 10 ^ 10 := (hb (k, v) (List.mem_cons_self _ _)).2
    have hlt : ¬ size ≤ tot := by omega
    have hE : encodePairs ((k, v) :: ps) = netstrWriter k v ++ encodePairs ps := rfl
    have hF : netstrWriter k v
        = (numeral k.length ++ [32] ++ k ++ [32])
            ++ (numeral v.length ++ [32] ++ v ++ [10]) := netstrWriter_split k v
    have hF1len : (numeral k.length ++ [32] ++ k ++ [32]).length
        = (numeral k.length).length + 1 + k.length + 1 := by
      simp
      omega
    have hF2len : (numeral v.length ++ [32] ++ v ++ [10]).length
        = (numeral v.length).length + 1 + v.length + 1 := by
      simp
      omega
    by_cases hcase : n < (netstrWriter k v).length
    · -- the cut falls inside the first record: no pair is yielded
      have hR : (encodePairs ((k, v) :: ps)).take n = (netstrWriter k v).take n := by
        rw [hE]
        exact List.take_append_of_le_length (by omega)
      by_cases hfield : n < (numeral k.length ++ [32] ++ k ++ [32]).length
      · -- inside the key field
        have hI1 : data.drop idx ++ src
            = (numeral k.length ++ 32 :: (k ++ [32])).take n := by
          rw [hI, hR, hF, List.take_append_of_le_length (by omega),
            field_flat_nil k k.length 32]
        have hstep := readNetstr_err tot hI1 hk10 rfl (by omega)
        have hcf : (if cutInsideField ((k, v) :: ps) n then Err.truncated
              else Err.corrupted)
            = (if n < (numeral k.length).length + 1 then Err.corrupted
              else Err.truncated) := by
          by_cases hx : n < (numeral k.length).length + 1
          · rw [if_pos hx]
            have hc0 : cutInsideField ((k, v) :: ps) n = false := by
              simp only [cutInsideField]
              rw [if_pos hx]
            rw [hc0]
            rfl
          · rw [if_neg hx]
            have h2 : n < (numeral k.length).length + 1 + (k.length + 1) := by
              omega
            have hc1 : cutInsideField ((k, v) :: ps) n = true := by
              simp only [cutInsideField]
              rw [if_neg hx, if_pos h2]
            rw [hc1]
            rfl
        refine ⟨0, src, ?_⟩
        rw [hcf]
        simp only [netstrLoop, hstep]
        rw [if_neg hlt]
        simp
      · -- the key field is complete; the cut falls inside the value field
        have hn2 : n - (numeral k.length ++ [32] ++ k ++ [32]).length
            < (numeral v.length ++ [32] ++ v ++ [10]).length := by
          rw [hF] at hcase
          simp only [List.length_append] at hcase
          simp only [List.length_append] at hfield ⊢
          omega
        have hI1 : data.drop idx ++ src
            = numeral k.length ++ 32 :: (k ++ 32 ::
                ((numeral v.length ++ [32] ++ v ++ [10]).take
                  (n - (numeral k.length ++ [32] ++ k ++ [32]).length))) := by
          rw [hI, hR, hF, List.take_append_eq_append_take,
            List.take_of_length_le (by omega)]
          exact field_flat k k.length 32 _
        obtain ⟨srcA, idxA, dataA, hstep1, hIA⟩ := readNetstr_ok tot hI1 hk10 rfl
        have hIA2 : dataA.drop idxA ++ srcA
            = (numeral v.length ++ 32 :: (v ++ [10])).take
                (n - (numeral k.length ++ [32] ++ k ++ [32]).length) := by
          rw [hIA, field_flat_nil v v.length 10]
        have hstep2 := readNetstr_err
          (tot + ((numeral k.length).length + 1) + k.length + 1)
          hIA2 hv10 rfl (by
          rw [hF2len] at hn2
          omega)
        have hkK : ¬ n < (numeral k.length).length + 1 := by omega
        have hkK2 : ¬ n < (numeral k.length).length + 1 + (k.length + 1) := by
          omega
        have hcf : (if cutInsideField ((k, v) :: ps) n then Err.truncated
              else Err.corrupted)
            = (if n - (numeral k.length ++ [32] ++ k ++ [32]).length
                  < (numeral v.length).length + 1
              then Err.corrupted else Err.truncated) := by
          by_cases hx : n - (numeral k.length ++ [32] ++ k ++ [32]).length
              < (numeral v.length).length + 1
          · rw [if_pos hx]
            have h3 : n < (numeral k.length).length + 1 + (k.length + 1)
                + ((numeral v.length).length + 1) := by omega
            have hc0 : cutInsideField ((k, v) :: ps) n = false := by
              simp only [cutInsideField]
              rw [if_neg hkK, if_neg hkK2, if_pos h3]
            rw [hc0]
            rfl
          · rw [if_neg hx]
            have h3 : ¬ n < (numeral k.length).length + 1 + (k.length + 1)
                + ((numeral v.length).length + 1) := by omega
            have h4 : n < (numeral k.length).length + 1 + (k.length + 1)
                + ((numeral v.length).length + 1) + (v.length + 1) := by
              rw [hF2len] at hn2
              omega
            have hc1 : cutInsideField ((k, v) :: ps) n = true := by
              simp only [cutInsideField]
              rw [if_neg hkK, if_neg hkK2, if_neg h3, if_pos h4]
            rw [hc1]
            rfl
        refine ⟨0, srcA, ?_⟩
        rw [hcf]
        simp only [netstrLoop, hstep1, hstep2]
        rw [if_neg hlt]
        simp
    · -- the first record is complete: it is yielded and the loop recurses
      have hrlen := netstrWriter_length k v
      have hr1 : 0 < (netstrWriter k v).length := netstrWriter_length_pos k v
      have hn2 : n - (netstrWriter k v).length ≤ (encodePairs ps).length := by
        rw [hE] at hn
        simp only [List.length_append] at hn
        omega
      have hR : (encodePairs ((k, v) :: ps)).take n
          = netstrWriter k v ++ (encodePairs ps).take (n - (netstrWriter k v).length) := by
        rw [hE, List.take_append_eq_append_take, List.take_of_length_le (by omega)]
      have hI1 : data.drop idx ++ src
          = numeral k.length ++ 32 :: (k ++ 32 :: (numeral v.length ++ 32 ::
              (v ++ 10 :: (encodePairs ps).take (n - (netstrWriter k v).length)))) := by
        rw [hI, hR]
        exact netstrWriter_decomp k v _
      obtain ⟨srcA, idxA, dataA, hstep1, hIA⟩ := readNetstr_ok tot hI1 hk10 rfl
      obtain ⟨srcB, idxB, dataB, hstep2, hIB⟩ :=
        readNetstr_ok (tot + ((numeral k.length).length + 1) + k.length + 1)
          hIA hv10 rfl
      have hrec := ih (n - (netstrWriter k v).length) m srcB dataB idxB
        (tot + ((numeral k.length).length + 1) + k.length + 1
          + ((numeral v.length).length + 1) + v.length + 1) size
        (fun q hq => hb q (List.mem_cons_of_mem _ hq)) hIB hn2
        (by omega) (by omega)
      obtain ⟨j, s2, hloop⟩ := hrec
      have h1 : ¬ n < (numeral k.length).length + 1 := by omega
      have h2 : ¬ n < (numeral k.length).length + 1 + (k.length + 1) := by omega
      have h3 : ¬ n < (numeral k.length).length + 1 + (k.length + 1)
          + ((numeral v.length).length + 1) := by omega
      have h4 : ¬ n < (numeral k.length).length + 1 + (k.length + 1)
          + ((numeral v.length).length + 1) + (v.length + 1) := by omega
      have hcf : cutInsideField ((k, v) :: ps) n
          = cutInsideField ps (n - (netstrWriter k v).length) := by
        simp only [cutInsideField]
        rw [if_neg h1, if_neg h2, if_neg h3, if_neg h4]
        exact congrArg (cutInsideField ps) (by omega)
      refine ⟨j + 1, s2, ?_⟩
      rw [hcf]
      simp only [netstrLoop, hstep1, hstep2]
      rw [if_neg hlt]
      simp only [hloop]
      rw [List.take_succ_cons]

theorem numeral_length (n : Nat) (h0 : n ≠ 0) :
    (numeral n).length = Nat.log 10 n + 1 := by
  rw [numeral_eq]
  simp only [h0, if_false, List.length_reverse, List.length_map]
  exact Nat.digits_len 10 n (by norm_num) h0

/-! ## Claims C3 and C5 -/

/-- Claim C3 as amended: for every finite sequence of `(key, value)`
pairs in which every field is shorter than `10 ^ 10` bytes (its decimal
length fits the reader's 11-byte search window), encoding with
`netstr_writer` and decoding the concatenation with `old_netstr_reader`
under declared size equal to the bytes written yields exactly the
original pairs, in order, with no error. -/
theorem c3_amended (ps : List (Bytes × Bytes))
    (hb : ∀ p ∈ ps, p.1.length < 10 ^ 10 ∧ p.2.length < 10 ^ 10) :
    oldNetstrReader (encodePairs ps) (some (encodePairs ps).length) []
      = (ps, none, []) := by
  unfold oldNetstrReader
  apply netstrLoop_ok ps ((encodePairs ps).length + 1) _ _ 0 0 _ hb
  · simp
  · omega
  · have := encodePairs_len ps
    omega

/-- Claim C3, witness: a two-record round trip. -/
theorem c3_witness :
    oldNetstrReader (encodePairs [([102, 111, 111], [98, 97, 114]), ([], [120])])
        (some (encodePairs [([102, 111, 111], [98, 97, 114]), ([], [120])]).length) []
      = ([([102, 111, 111], [98, 97, 114]), ([], [120])], none, []) :=
  c3_amended _ (by decide)

/-- One loop iteration that fails in its first `read_netstr` call. -/
theorem netstrLoop_error_step {src data : Bytes} {idx tot size fuel : Nat} {e : Err}
    (hstep : readNetstr src idx data tot = .error e) (hlt : tot < size) :
    netstrLoop size (fuel + 1) src idx data tot = ([], some e, src) := by
  simp only [netstrLoop, hstep]
  rw [if_neg (by omega)]

/-- Auxiliary: when the first key's decimal length does not fit the
11-byte search window, decoding the encoding fails Corrupted at once. -/
theorem netstr_key_too_long {k v : Bytes}
    (hk : 11 ≤ (numeral k.length).length)
    (hlen : 8192 ≤ (encodePairs [(k, v)]).length) :
    oldNetstrReader (encodePairs [(k, v)]) (some (encodePairs [(k, v)]).length) []
      = ([], some Err.corrupted, (encodePairs [(k, v)]).drop 8192) := by
  have hE : encodePairs [(k, v)]
      = numeral k.length
          ++ 32 :: (k ++ 32 :: (numeral v.length ++ 32 :: (v ++ 10 :: []))) := by
    show netstrWriter k v ++ [] = _
    rw [netstrWriter_decomp]
  have hdatalen : ((encodePairs [(k, v)]).take 8192).length = 8192 := by
    rw [List.length_take]
    omega
  have hrefill : refill 11 8192 ((encodePairs [(k, v)]).drop 8192) 0
      ((encodePairs [(k, v)]).take 8192)
      = ((encodePairs [(k, v)]).drop 8192, 0, (encodePairs [(k, v)]).take 8192) := by
    unfold refill
    have hc : ¬ ((encodePairs [(k, v)]).take 8192).length - 0 < 11 := by omega
    rw [if_neg hc]
  have hfind : pyFind ((encodePairs [(k, v)]).take 8192) 32 0 (0 + 11) = none := by
    unfold pyFind
    apply pyFindAux_none
    intro j hj
    have hj11 : j < 11 := by omega
    have h1 : ((encodePairs [(k, v)]).take 8192)[0 + j]? = (encodePairs [(k, v)])[j]? := by
      rw [Nat.zero_add]
      exact List.getElem?_take_of_lt (by omega)
    have h2 : (encodePairs [(k, v)])[j]? = (numeral k.length)[j]? := by
      rw [hE]
      exact List.getElem?_append_left (by omega)
    rw [h1, h2, List.getElem?_eq_getElem (by omega)]
    intro hcon
    have h32 : (numeral k.length)[j] = 32 := by simpa using hcon
    have := mem_numeral_digit (n := k.length) (h32 ▸ List.getElem_mem (by omega))
    omega
  have hstep : readNetstr ((encodePairs [(k, v)]).drop 8192) 0
      ((encodePairs [(k, v)]).take 8192) 0 = .error .corrupted := by
    unfold readNetstr
    simp only [hrefill, hfind]
  unfold oldNetstrReader
  show netstrLoop (encodePairs [(k, v)]).length ((encodePairs [(k, v)]).length + 1)
      ((encodePairs [(k, v)]).drop 8192) 0 ([] ++ (encodePairs [(k, v)]).take 8192) 0
    = ([], some Err.corrupted, (encodePairs [(k, v)]).drop 8192)
  rw [List.nil_append]
  exact netstrLoop_error_step hstep (by omega)

/-- Claim C3, counterexample: a key of `10 ^ 10` bytes has an 11-digit
decimal length, one more than the 11-byte window `find(" ", idx, idx+11)`
can see past, so decoding its own encoding under the exact declared size
yields no pair and fails Corrupted instead of round-tripping. -/
theorem c3_counterexample :
    (oldNetstrReader (encodePairs [(List.replicate (10 ^ 10) 97, [])])
        (some (encodePairs [(List.replicate (10 ^ 10) 97, [])]).length) []).1 = []
    ∧ (oldNetstrReader (encodePairs [(List.replicate (10 ^ 10) 97, [])])
        (some (encodePairs [(List.replicate (10 ^ 10) 97, [])]).length) []).2.1
      = some Err.corrupted := by
  have hnum : numeral ((10 : Nat) ^ 10) = [49, 48, 48, 48, 48, 48, 48, 48, 48, 48, 48] := by
    decide
  have hlen11 : (numeral (List.replicate (10 ^ 10) 97).length).length = 11 := by
    rw [List.length_replicate, hnum]
    rfl
  have hElen : 8192 ≤ (encodePairs [(List.replicate (10 ^ 10) 97, [])]).length := by
    have hd : encodePairs [(List.replicate (10 ^ 10) 97, [])]
        = numeral (List.replicate (10 ^ 10) 97).length
            ++ 32 :: (List.replicate (10 ^ 10) 97
              ++ 32 :: (numeral (List.length ([] : Bytes)) ++ 32 :: ([] ++ 10 :: []))) := by
      show netstrWriter (List.replicate (10 ^ 10) 97) [] ++ [] = _
      rw [netstrWriter_decomp]
    have hp : (10 : Nat) ^ 10 = 10000000000 := by norm_num
    rw [hd, List.length_append, List.length_cons, List.length_append,
      List.length_replicate, hp]
    omega
  have h := netstr_key_too_long (k := List.replicate (10 ^ 10) 97) (v := [])
    (le_of_eq hlen11.symm) hElen
  exact ⟨by rw [h], by rw [h]⟩

/-- Claim C5 as amended: whenever the available bytes are a front
(`n` bytes, `n` at most the full encoding, declared size `s > n`) of a
valid legacy encoding, decoding yields some front of the pair sequence
— never a pair containing a cut field — and fails with exactly the
DataError the cut position dictates: Truncated when end-of-source falls
inside a length-prefixed field (after its `"<len> "` prefix, before the
field body and its one-byte delimiter are complete), Corrupted when no
length prefix can be parsed from what remains (end-of-source inside a
length prefix, or exactly at a field or record boundary). -/
theorem c5_amended (ps : List (Bytes × Bytes)) (n s : Nat)
    (hb : ∀ p ∈ ps, p.1.length < 10 ^ 10 ∧ p.2.length < 10 ^ 10)
    (hn : n ≤ (encodePairs ps).length) (hs : n < s) :
    ∃ j s2,
      oldNetstrReader ((encodePairs ps).take n) (some s) []
        = (ps.take j,
           some (if cutInsideField ps n then Err.truncated else Err.corrupted),
           s2) := by
  unfold oldNetstrReader
  exact netstrLoop_err ps n (s + 1) (((encodePairs ps).take n).drop 8192)
    ([] ++ ((encodePairs ps).take n).take 8192) 0 0 s hb (by simp) hn
    (by omega) (by omega)

/-- Claim C5, witness: the encoding of `("foo", "bar")` cut to its first
5 bytes under declared size 12 — the cut falls inside the key field
`"foo"`, so the error is Truncated, and no pair is reported as cut. -/
theorem c5_witness :
    ∃ j s2,
      oldNetstrReader ((encodePairs [([102, 111, 111], [98, 97, 114])]).take 5)
          (some 12) []
        = ([([102, 111, 111], [98, 97, 114])].take j, some Err.truncated, s2) := by
  have h := c5_amended [([102, 111, 111], [98, 97, 114])] 5 12 (by decide)
    (by decide) (by decide)
  have hc : cutInsideField [([102, 111, 111], [98, 97, 114])] 5 = true := by decide
  rw [hc] at h
  simpa using h

/-! ## Chunk header codec lemmas -/

theorem leBytes_length : ∀ w n, (leBytes w n).length = w := by
  intro w
  induction w with
  | zero => intro n; rfl
  | succ w ih =>
    intro n
    show (n % 256 :: leBytes w (n / 256)).length = w + 1
    rw [List.length_cons, ih]

theorem leDecode_leBytes : ∀ w n, leDecode (leBytes w n) = n % 256 ^ w := by
  intro w
  induction w with
  | zero => intro n; simp [leBytes, leDecode, Nat.mod_one]
  | succ w ih =>
    intro n
    have hcons : leDecode (n % 256 :: leBytes w (n / 256))
        = n % 256 + 256 * leDecode (leBytes w (n / 256)) := rfl
    show leDecode (n % 256 :: leBytes w (n / 256)) = n % 256 ^ (w + 1)
    rw [hcons, ih, pow_succ']
    exact Nat.mod_mul.symm

theorem mkHeader_length (f c L : Nat) : (mkHeader f c L).length = 13 := by
  show (f :: (leBytes 4 c ++ leBytes 8 L)).length = 13
  rw [List.length_cons, List.length_append, leBytes_length, leBytes_length]

theorem parseHeader_mkHeader (f c L : Nat) :
    parseHeader (mkHeader f c L)
      = some (f, c % 4294967296, L % 18446744073709551616) := by
  have h4 : leDecode (leBytes 4 c) = c % 4294967296 := by
    rw [leDecode_leBytes]
    norm_num
  have h8 : leDecode (leBytes 8 L) = L % 18446744073709551616 := by
    rw [leDecode_leBytes]
    norm_num
  rw [← h4, ← h8]
  rfl

theorem parseHeader_short {bs : Bytes} (h : bs.length < 13) : parseHeader bs = none := by
  rcases bs with _ | ⟨b0, _ | ⟨b1, _ | ⟨b2, _ | ⟨b3, _ | ⟨b4, _ | ⟨b5, _ | ⟨b6,
    _ | ⟨b7, _ | ⟨b8, _ | ⟨b9, _ | ⟨b10, _ | ⟨b11, _ | ⟨b12, t⟩⟩⟩⟩⟩⟩⟩⟩⟩⟩⟩⟩⟩ <;>
    first
      | rfl
      | (exfalso; simp only [List.length_cons] at h; omega)

/-! ## Chunk-loop lemmas -/

theorem discoLoop_irrel {α : Type} (crc : Bytes → Nat) (dcmp : Bytes → Option Bytes)
    (load : Bytes → Option (α × Bytes)) (size : Option Nat) (ic : Bool) :
    ∀ (f1 f2 : Nat) (src : Bytes), src.length < f1 → src.length < f2 →
      discoLoop crc dcmp load size ic f1 src = discoLoop crc dcmp load size ic f2 src := by
  intro f1
  induction f1 with
  | zero => intro f2 src h1 _; exact absurd h1 (Nat.not_lt_zero _)
  | succ n ih =>
    intro f2 src h1 h2
    obtain ⟨m, rfl⟩ : ∃ m, f2 = m + 1 := ⟨f2 - 1, by omega⟩
    cases src with
    | nil => rfl
    | cons b rest =>
      simp only [discoLoop]
      by_cases hb : b < 128
      · rw [if_pos hb, if_pos hb]
      · rw [if_neg hb, if_neg hb]
        rcases hph : parseHeader (rest.take 13) with _ | ⟨flag, checksum, chunkSize⟩
        · simp only [hph]
        · simp only [hph]
          by_cases hz : chunkSize = 0
          · rw [if_pos hz, if_pos hz]
          · rw [if_neg hz, if_neg hz]
            have hlen2 : ((rest.drop 13).drop chunkSize).length ≤ rest.length := by
              simp only [List.length_drop]
              omega
            have hrec : discoLoop crc dcmp load size ic n ((rest.drop 13).drop chunkSize)
                = discoLoop crc dcmp load size ic m ((rest.drop 13).drop chunkSize) := by
              apply ih
              · simp only [List.length_cons] at h1
                omega
              · simp only [List.length_cons] at h2
                omega
            rw [hrec]

theorem discoLoop_chunk_step {α : Type} (crc : Bytes → Nat) (dcmp : Bytes → Option Bytes)
    (load : Bytes → Option (α × Bytes)) (size : Option Nat) (ic : Bool)
    (payload tail : Bytes) (fuel : Nat) {b c L : Nat}
    (hb : 128 ≤ b) (hc : c = crc payload % 4294967296)
    (hp : payload.length = L) (hL : L ≠ 0) (hL64 : L < 18446744073709551616) :
    discoLoop crc dcmp load size ic (fuel + 1) (b :: (mkHeader 0 c L ++ (payload ++ tail)))
      = ((unpickleAll load (payload.length + 1) payload).map Item.obj
            ++ (discoLoop crc dcmp load size ic fuel tail).1,
         (discoLoop crc dcmp load size ic fuel tail).2.1,
         (discoLoop crc dcmp load size ic fuel tail).2.2) := by
  have htake : (mkHeader 0 c L ++ (payload ++ tail)).take 13 = mkHeader 0 c L := by
    rw [← mkHeader_length 0 c L]
    exact List.take_left _ _
  have hdrop : (mkHeader 0 c L ++ (payload ++ tail)).drop 13 = payload ++ tail := by
    rw [← mkHeader_length 0 c L]
    exact List.drop_left _ _
  have hparse : parseHeader (mkHeader 0 c L) = some (0, c, L) := by
    rw [parseHeader_mkHeader]
    have hc32 : c % 4294967296 = c := by
      rw [hc]
      exact Nat.mod_mod_of_dvd _ dvd_rfl
    have hl64 : L % 18446744073709551616 = L := Nat.mod_eq_of_lt hL64
    rw [hc32, hl64]
  have hchtake : (payload ++ tail).take L = payload := by
    rw [← hp]
    exact List.take_left _ _
  have hchdrop : (payload ++ tail).drop L = tail := by
    rw [← hp]
    exact List.drop_left _ _
  simp only [discoLoop]
  rw [if_neg (by omega), htake]
  simp only [hparse]
  rw [if_neg hL, hdrop, hchtake, hchdrop]
  rw [if_neg (show ¬ (0 : Nat) ≠ 0 by omega), if_pos hc]
  rw [if_neg (by simp)]

theorem discoLoop_terminal_step {α : Type} (crc : Bytes → Nat) (dcmp : Bytes → Option Bytes)
    (load : Bytes → Option (α × Bytes)) (size : Option Nat) (ic : Bool)
    (fuel : Nat) {b : Nat} (f c : Nat) (rest : Bytes) (hb : 128 ≤ b) :
    discoLoop crc dcmp load size ic (fuel + 1) (b :: (mkHeader f c 0 ++ rest))
      = ([], none, rest) := by
  have htake : (mkHeader f c 0 ++ rest).take 13 = mkHeader f c 0 := by
    rw [← mkHeader_length f c 0]
    exact List.take_left _ _
  have hdrop : (mkHeader f c 0 ++ rest).drop 13 = rest := by
    rw [← mkHeader_length f c 0]
    exact List.drop_left _ _
  have hparse : parseHeader (mkHeader f c 0) = some (f, c % 4294967296, 0) := by
    rw [parseHeader_mkHeader]
  simp only [discoLoop]
  rw [if_neg (by omega), htake]
  simp only [hparse]
  rw [if_pos trivial, hdrop]

theorem discoLoop_short_header {α : Type} (crc : Bytes → Nat) (dcmp : Bytes → Option Bytes)
    (load : Bytes → Option (α × Bytes)) (size : Option Nat) (ic : Bool)
    (fuel : Nat) {b : Nat} {t : Bytes} (hb : 128 ≤ b) (ht : t.length < 13) :
    discoLoop crc dcmp load size ic (fuel + 1) (b :: t)
      = ([], some Err.truncated, []) := by
  have htake : t.take 13 = t := List.take_of_length_le (by omega)
  have hdrop : t.drop 13 = [] := List.drop_of_length_le (by omega)
  simp only [discoLoop]
  rw [if_neg (by omega), htake]
  simp only [parseHeader_short ht]
  rw [hdrop]

theorem encodeChunks_cons (crc : Bytes → Nat) (p : Nat × Bytes) (ps : List (Nat × Bytes)) :
    encodeChunks crc (p :: ps)
      = p.1 :: (mkHeader 0 (crc p.2 % 4294967296) p.2.length
          ++ (p.2 ++ encodeChunks crc ps)) := by
  show p.1 :: ((mkHeader 0 (crc p.2 % 4294967296) p.2.length ++ p.2)
      ++ encodeChunks crc ps) = _
  rw [List.append_assoc]

theorem encodeChunks_cons_length (crc : Bytes → Nat) (p : Nat × Bytes)
    (ps : List (Nat × Bytes)) :
    (encodeChunks crc (p :: ps)).length
      = 14 + p.2.length + (encodeChunks crc ps).length := by
  rw [encodeChunks_cons]
  simp only [List.length_cons, List.length_append, mkHeader_length]
  omega

/-- A stream of well-formed chunks with no terminal zero chunk decodes to
all their objects and ends cleanly when the next one-byte read finds the
source empty. -/
theorem discoLoop_chunks {α : Type} (crc : Bytes → Nat) (dcmp : Bytes → Option Bytes)
    (load : Bytes → Option (α × Bytes)) (size : Option Nat) (ic : Bool) :
    ∀ (chunks : List (Nat × Bytes)) (fuel : Nat),
      (∀ p ∈ chunks, 128 ≤ p.1 ∧ p.2 ≠ [] ∧ p.2.length < 18446744073709551616) →
      (encodeChunks crc chunks).length < fuel →
      discoLoop crc dcmp load size ic fuel (encodeChunks crc chunks)
        = (chunkObjs load chunks, none, []) := by
  intro chunks
  induction chunks with
  | nil =>
    intro fuel _ hf
    obtain ⟨m, rfl⟩ : ∃ m, fuel = m + 1 := ⟨fuel - 1, by omega⟩
    rfl
  | cons p ps ih =>
    intro fuel hwf hf
    obtain ⟨m, rfl⟩ : ∃ m, fuel = m + 1 := ⟨fuel - 1, by omega⟩
    obtain ⟨hb, hpne, h64⟩ := hwf p (List.mem_cons_self _ _)
    have hstep := discoLoop_chunk_step crc dcmp load size ic
      p.2 (encodeChunks crc ps) m (b := p.1) (c := crc p.2 % 4294967296)
      (L := p.2.length)
      hb rfl rfl (fun h => hpne (List.length_eq_zero.mp h)) h64
    have hlen := encodeChunks_cons_length crc p ps
    rw [encodeChunks_cons, hstep,
      ih m (fun q hq => hwf q (List.mem_cons_of_mem _ hq)) (by omega)]
    rfl

/-! ## Claims C2 (amended), C4, C6 and C10 -/

/-- Claim C2 as amended: the 13 bytes after the initial sniff byte are
parsed as the first chunk header (1-byte compressed flag, 4-byte
little-endian CRC32, 8-byte little-endian length), but after a
non-terminal chunk's payload the decoder does NOT read a header
directly: it restarts the loop, so decoding the remainder `tail` begins
with a fresh one-byte format sniff (empty read ends the stream, a byte
below 128 switches to the legacy reader, a byte of 128 or more is
discarded as a marker and only then the next 13-byte header follows). -/
theorem c2_amended (α : Type) (crc : Bytes → Nat) (dcmp : Bytes → Option Bytes)
    (load : Bytes → Option (α × Bytes)) (size : Option Nat) (ic : Bool)
    (b c L : Nat) (payload tail : Bytes)
    (hb : 128 ≤ b) (hc : c = crc payload % 4294967296)
    (hp : payload.length = L) (hL : L ≠ 0) (hL64 : L < 18446744073709551616) :
    discoInputStream crc dcmp load (b :: (mkHeader 0 c L ++ (payload ++ tail))) size ic
      = ((unpickleAll load (payload.length + 1) payload).map Item.obj
            ++ (discoInputStream crc dcmp load tail size ic).1,
         (discoInputStream crc dcmp load tail size ic).2.1,
         (discoInputStream crc dcmp load tail size ic).2.2) := by
  unfold discoInputStream
  have hirr : discoLoop crc dcmp load size ic
        (b :: (mkHeader 0 c L ++ (payload ++ tail))).length tail
      = discoLoop crc dcmp load size ic (tail.length + 1) tail := by
    apply discoLoop_irrel
    · simp only [List.length_cons, List.length_append, mkHeader_length]
      omega
    · omega
  rw [discoLoop_chunk_step crc dcmp load size ic payload tail _ hb hc hp hL hL64, hirr]

/-- Claim C2, witness: one uncompressed single-byte chunk followed by an
empty remainder. -/
theorem c2_witness :
    discoInputStream (fun _ => 0) (fun _ => none)
        (fun b => match b with
          | [7] => some ((42 : Nat), ([] : Bytes))
          | _ => none)
        (200 :: (mkHeader 0 0 1 ++ ([7] ++ []))) (some 100) false
      = ((unpickleAll (fun b => match b with
            | [7] => some ((42 : Nat), ([] : Bytes))
            | _ => none) (List.length [7] + 1) [7]).map Item.obj
            ++ (discoInputStream (fun _ => 0) (fun _ => none)
                (fun b => match b with
                  | [7] => some ((42 : Nat), ([] : Bytes))
                  | _ => none) [] (some 100) false).1,
         (discoInputStream (fun _ => 0) (fun _ => none)
            (fun b => match b with
              | [7] => some ((42 : Nat), ([] : Bytes))
              | _ => none) [] (some 100) false).2.1,
         (discoInputStream (fun _ => 0) (fun _ => none)
            (fun b => match b with
              | [7] => some ((42 : Nat), ([] : Bytes))
              | _ => none) [] (some 100) false).2.2) :=
  c2_amended Nat _ _ _ (some 100) false 200 0 1 [7] [] (by decide) (by decide)
    (by decide) (by decide) (by decide)

/-- Claim C4: a chunk header whose length field is zero ends the decode
normally, with nothing further read (the bytes after the 14 consumed
ones are returned untouched); and a short (under 13 bytes) header read
after the sniff byte raises Truncated, whatever `ignore_corrupt` is. -/
theorem c4_terminal_truncated :
    (∀ (α : Type) (crc : Bytes → Nat) (dcmp : Bytes → Option Bytes)
        (load : Bytes → Option (α × Bytes)) (size : Option Nat) (ic : Bool)
        (b f c : Nat) (rest : Bytes), 128 ≤ b →
        discoInputStream crc dcmp load (b :: (mkHeader f c 0 ++ rest)) size ic
          = ([], none, rest))
    ∧ (∀ (α : Type) (crc : Bytes → Nat) (dcmp : Bytes → Option Bytes)
        (load : Bytes → Option (α × Bytes)) (size : Option Nat) (ic : Bool)
        (b : Nat) (t : Bytes), 128 ≤ b → t.length < 13 →
        discoInputStream crc dcmp load (b :: t) size ic
          = ([], some Err.truncated, [])) := by
  constructor
  · intro α crc dcmp load size ic b f c rest hb
    unfold discoInputStream
    exact discoLoop_terminal_step crc dcmp load size ic _ f c rest hb
  · intro α crc dcmp load size ic b t hb ht
    unfold discoInputStream
    exact discoLoop_short_header crc dcmp load size ic _ hb ht

/-- Claim C4, witness: a zero-length terminal chunk with trailing bytes
left unread, and a 2-byte header fragment raising Truncated with
`ignore_corrupt` true. -/
theorem c4_witness :
    (discoInputStream (fun _ => 0) (fun _ => none)
        (fun _ : Bytes => (none : Option (Nat × Bytes)))
        (200 :: (mkHeader 5 99 0 ++ [1, 2, 3])) (some 4) false
      = ([], none, [1, 2, 3]))
    ∧ (discoInputStream (fun _ => 0) (fun _ => none)
        (fun _ : Bytes => (none : Option (Nat × Bytes)))
        (200 :: [0, 0]) none true
      = ([], some Err.truncated, [])) :=
  ⟨c4_terminal_truncated.1 Nat _ _ _ (some 4) false 200 5 99 [1, 2, 3] (by decide),
   c4_terminal_truncated.2 Nat _ _ _ none true 200 [0, 0] (by decide) (by decide)⟩

/-- Claim C6: an empty first read decodes to the empty sequence with no
error; a first byte below 128 hands the whole remainder to
`old_netstr_reader` with that byte as already-consumed lookahead (the
buffer starts as `head + fd.read(8192)`), so the chunked path never
runs and decoding ends when the legacy decode does. -/
theorem c6_dispatch :
    (∀ (α : Type) (crc : Bytes → Nat) (dcmp : Bytes → Option Bytes)
        (load : Bytes → Option (α × Bytes)) (size : Option Nat) (ic : Bool),
        discoInputStream crc dcmp load [] size ic = ([], none, []))
    ∧ (∀ (α : Type) (crc : Bytes → Nat) (dcmp : Bytes → Option Bytes)
        (load : Bytes → Option (α × Bytes)) (size : Option Nat) (ic : Bool)
        (b : Nat) (rest : Bytes), b < 128 →
        discoInputStream crc dcmp load (b :: rest) size ic
          = ((oldNetstrReader rest size [b]).1.map (fun p => Item.pair p.1 p.2),
             (oldNetstrReader rest size [b]).2.1,
             (oldNetstrReader rest size [b]).2.2)) := by
  constructor
  · intro α crc dcmp load size ic
    rfl
  · intro α crc dcmp load size ic b rest hb
    unfold discoInputStream
    simp only [discoLoop]
    rw [if_pos hb]

/-- Claim C6, witness: the empty source, and the legacy stream
`"3 foo 3 bar\n"` whose first byte `'3'` is below 128. -/
theorem c6_witness :
    (discoInputStream (fun _ => 0) (fun _ => none)
        (fun _ : Bytes => (none : Option (Nat × Bytes))) [] none false
      = ([], none, []))
    ∧ (discoInputStream (fun _ => 0) (fun _ => none)
        (fun _ : Bytes => (none : Option (Nat × Bytes)))
        (51 :: [32, 102, 111, 111, 32, 51, 32, 98, 97, 114, 10]) (some 12) false
      = ((oldNetstrReader [32, 102, 111, 111, 32, 51, 32, 98, 97, 114, 10]
            (some 12) [51]).1.map (fun p => Item.pair p.1 p.2),
         (oldNetstrReader [32, 102, 111, 111, 32, 51, 32, 98, 97, 114, 10]
            (some 12) [51]).2.1,
         (oldNetstrReader [32, 102, 111, 111, 32, 51, 32, 98, 97, 114, 10]
            (some 12) [51]).2.2)) :=
  ⟨c6_dispatch.1 Nat _ _ _ none false,
   c6_dispatch.2 Nat _ _ _ (some 12) false 51 _ (by decide)⟩

/-- Claim C10: when end-of-source falls exactly at a chunk boundary —
the stream is a sequence of well-formed chunks with no terminal
zero-length chunk, so the one-byte read before the next header returns
empty — decoding ends normally with no error, yielding every chunk's
objects. -/
theorem c10_chunk_boundary (α : Type) (crc : Bytes → Nat) (dcmp : Bytes → Option Bytes)
    (load : Bytes → Option (α × Bytes)) (size : Option Nat) (ic : Bool)
    (chunks : List (Nat × Bytes))
    (hwf : ∀ p ∈ chunks, 128 ≤ p.1 ∧ p.2 ≠ [] ∧ p.2.length < 18446744073709551616) :
    discoInputStream crc dcmp load (encodeChunks crc chunks) size ic
      = (chunkObjs load chunks, none, []) := by
  unfold discoInputStream
  exact discoLoop_chunks crc dcmp load size ic chunks _ hwf (by omega)

/-- Claim C10, witness: a single well-formed chunk with no terminal
chunk after it. -/
theorem c10_witness :
    discoInputStream (fun _ => 0) (fun _ => none)
        (fun b => match b with
          | [7] => some ((42 : Nat), ([] : Bytes))
          | _ => none)
        (encodeChunks (fun _ => 0) [(200, [7])]) none false
      = (chunkObjs (fun b => match b with
          | [7] => some ((42 : Nat), ([] : Bytes))
          | _ => none) [(200, [7])], none, []) :=
  c10_chunk_boundary Nat _ _ _ none false [(200, [7])] (by decide)

/-! ## Concrete claim evaluations -/

/-- Claim C7: `re_reader` with pattern `"(.*?)\n"`, `output_tail=True` and
declared size 5 over the five bytes `"a\nb\nc"` (no trailing newline)
yields exactly the capture tuples for `"a"` and `"b"` followed by the
one-element tail `["c"]`, and raises no error. -/
theorem c7_tail_policy :
    reReader lineMatch [97, 10, 98, 10, 99] (some 5) true 8192
      = ([[[97]], [[98]], [[99]]], none, []) := by decide

/-- Claim C8, counterexample: on the 11-byte input `"3 foo3 bar\n"` with
declared size 10, `old_netstr_reader` does not yield `("foo", "bar")`.
After the key `"foo"` the one-byte delimiter skip consumes the `'3'`,
the next length slice is the bare space at offset 6, `int(" ")` raises
`ValueError`, and decoding fails with the Corrupted error having
yielded nothing — the claimed single-pair, error-free decode is false. -/
theorem c8_counterexample :
    oldNetstrReader [51, 32, 102, 111, 111, 51, 32, 98, 97, 114, 10] (some 10) []
      = ([], some .corrupted, []) := by decide

/-- Claim C8 as amended: on the writer-format 12-byte input
`"3 foo 3 bar\n"` (a delimiter byte after each field, as `netstr_writer`
emits) with declared size 10, the reader yields exactly the single pair
`("foo", "bar")` and terminates without error. -/
theorem c8_amended :
    oldNetstrReader [51, 32, 102, 111, 111, 32, 51, 32, 98, 97, 114, 10] (some 10) []
      = ([([102, 111, 111], [98, 97, 114])], none, []) := by decide

/-- Claim C9: `old_netstr_reader` invoked with `size = None` fails (in
Python, the unbound name `err` raises `NameError` on the first `next()`)
before any record is yielded and before any byte is read from the
source — the returned source is untouched and the pair list is empty. -/
theorem c9_size_none (src head : Bytes) :
    oldNetstrReader src none head = ([], some .sizeMissing, src) := rfl

/-- Claim C5, counterexample: the complete valid encoding of
`("foo", "bar")` — 12 available bytes — declared with size 20 has
declared size exceeding the available bytes, yet decoding does not fail
with Truncated: after the full record is yielded, `tot = 12 < 20`
continues the loop, the refilled buffer is empty, the space search
fails, and the reader raises the Corrupted ("could not parse a value
length") error instead. -/
theorem c5_counterexample :
    oldNetstrReader (encodePairs [([102, 111, 111], [98, 97, 114])]) (some 20) []
      = ([([102, 111, 111], [98, 97, 114])], some .corrupted, []) := by decide

/-- Claim C2, counterexample: lay out a stream the way the claim
describes — after the first chunk's payload, the 13 bytes of the next
(terminal, zero-length) chunk header follow immediately, with no byte
in between.  If those 13 bytes were parsed as the next chunk header,
decoding would end normally after yielding the first chunk's object.
Instead the loop first reads one more marker byte, sees the header's
flag byte `0 < 128`, hands the remaining twelve zero bytes to the
legacy netstr reader, and fails Corrupted: the claimed
"no other byte consumed in between" is false. -/
theorem c2_counterexample :
    discoInputStream (fun _ => 0) (fun _ => none)
        (fun b => match b with
          | [7] => some ((42 : Nat), ([] : Bytes))
          | _ => none)
        (200 :: (mkHeader 0 0 1 ++ [7]) ++ mkHeader 0 0 0) (some 100) false
      = ([Item.obj 42], some .corrupted, []) := by decide

/-- Claim C1, evaluation at the failing input: a stream of two
uncompressed one-byte chunks, the first with stored checksum 1 while
`crc` of its payload is 0 (a mismatch), the second well-formed.  With
`ignore_corrupt=True` the corrupt chunk is not skipped: its payload was
already bound to `data` before the checksum `ValueError` was raised and
swallowed, so its object 42 is yielded alongside the good chunk's 43.
With `ignore_corrupt=False` the mismatch raises Corrupted at that
chunk, the rest of the stream unread. -/
theorem c1_code_eval :
    (discoInputStream (fun _ => 0) (fun _ => none)
        (fun b => match b with
          | [7] => some ((42 : Nat), ([] : Bytes))
          | [8] => some (43, [])
          | _ => none)
        (200 :: (mkHeader 0 1 1 ++ [7]) ++ (200 :: (mkHeader 0 0 1 ++ [8])))
        none true
      = ([Item.obj 42, Item.obj 43], none, []))
    ∧ (discoInputStream (fun _ => 0) (fun _ => none)
        (fun b => match b with
          | [7] => some ((42 : Nat), ([] : Bytes))
          | [8] => some (43, [])
          | _ => none)
        (200 :: (mkHeader 0 1 1 ++ [7]) ++ (200 :: (mkHeader 0 0 1 ++ [8])))
        none false
      = ([], some .corrupted, 200 :: (mkHeader 0 0 1 ++ [8]))) :=
  ⟨by decide, by decide⟩

end Disco
